import Mathlib

/-!
Shallow embedding of `train_hypernetwork.py` (HyperGAN repository): the
ensemble-voting policy of `HyperNetworkTrainer.test`, the best-metrics
update, the test-loss accumulation, the configuration dispatch of
`HyperNetworkTrainer.__init__`, the per-batch operation sequence of
`HyperNetworkTrainer.train`, and models (from the specification) of the
parts of the Stein gradient estimator and the latent sampler whose code
lives outside this repository.
-/

namespace HyperGAN

/-- First index of a maximal element of a list: the convention of
`torch.argmax` along the class dimension (`probs.argmax(-1)` in
`HyperNetworkTrainer.test`).  Returns `0` on the empty list. -/
def argmaxIdx {α : Type} [LinearOrder α] : List α → ℕ
  | [] => 0
  | x :: xs => if xs.foldl max x ≤ x then 0 else argmaxIdx xs + 1

/-- Softmax along the class dimension: `F.softmax(outputs, dim=-1)` at one
example's logit vector. -/
noncomputable def softmax (v : List ℝ) : List ℝ :=
  v.map (fun x => Real.exp x / (v.map Real.exp).sum)

/-- Folding `max` commutes with a monotone map. -/
theorem foldl_max_map {α β : Type} [LinearOrder α] [LinearOrder β]
    (f : α → β) (hf : Monotone f) (xs : List α) (x : α) :
    (xs.map f).foldl max (f x) = f (xs.foldl max x) := by
  induction xs generalizing x with
  | nil => rfl
  | cons y ys ih =>
      simp only [List.map_cons, List.foldl_cons]
      rw [← hf.map_max, ih]

/-- A strictly monotone transform of the scores does not change the first
maximal index. -/
theorem argmaxIdx_map {α β : Type} [LinearOrder α] [LinearOrder β]
    (f : α → β) (hf : StrictMono f) (l : List α) :
    argmaxIdx (l.map f) = argmaxIdx l := by
  induction l with
  | nil => rfl
  | cons x xs ih =>
      simp only [List.map_cons, argmaxIdx, foldl_max_map f hf.monotone,
        hf.le_iff_le, ih]

/-- The softmax denominator is positive for a nonempty logit vector. -/
theorem softmax_denom_pos (v : List ℝ) (hv : v ≠ []) :
    0 < (v.map Real.exp).sum := by
  apply List.sum_pos
  · intro x hx
    rcases List.mem_map.mp hx with ⟨y, _, rfl⟩
    exact Real.exp_pos y
  · simpa using hv

/-- Softmax preserves the argmax: in `test`, `probs.argmax(-1)` equals the
argmax of the raw logits. -/
theorem argmaxIdx_softmax (v : List ℝ) : argmaxIdx (softmax v) = argmaxIdx v := by
  rcases eq_or_ne v [] with rfl | hv
  · rfl
  · have hS : 0 < (v.map Real.exp).sum := softmax_denom_pos v hv
    have hmono : StrictMono (fun x : ℝ => Real.exp x / (v.map Real.exp).sum) := by
      intro a b hab
      exact (div_lt_div_iff_of_pos_right hS).mpr (Real.exp_lt_exp.mpr hab)
    exact argmaxIdx_map _ hmono v

/-- Integer-valued logits can be compared after casting to the reals. -/
theorem argmaxIdx_intCast (l : List ℤ) :
    argmaxIdx (l.map (fun n : ℤ => (n : ℝ))) = argmaxIdx l :=
  argmaxIdx_map _ (fun _ _ h => by exact_mod_cast h) l

/-- Comparison used by the mode computation: `v` beats `best` when it occurs
strictly more often in `l`, or equally often with a smaller value.  This is
the tie convention of `preds.mode(0)` in `HyperNetworkTrainer.test`: among
the most frequent values the smallest is returned. -/
def modeBetter (l : List ℕ) (v best : ℕ) : Bool :=
  decide (l.count best < l.count v) ||
    (decide (l.count v = l.count best) && decide (v < best))

/-- The mode of a list of hard labels, ties broken towards the lowest label:
the value of `preds.mode(0)[0]` per example. -/
def modeLowest (l : List ℕ) : ℕ :=
  l.foldl (fun best v => if modeBetter l v best then v else best) (l.headD 0)

/-- `a` dominates `b` for the mode selection over `l`: strictly more
occurrences, or equally many and `a ≤ b`. -/
def ModeGe (l : List ℕ) (a b : ℕ) : Prop :=
  l.count b < l.count a ∨ (l.count a = l.count b ∧ a ≤ b)

theorem modeGe_refl (l : List ℕ) (a : ℕ) : ModeGe l a a :=
  Or.inr ⟨rfl, le_refl a⟩

theorem modeGe_trans (l : List ℕ) {a b c : ℕ}
    (hab : ModeGe l a b) (hbc : ModeGe l b c) : ModeGe l a c := by
  unfold ModeGe at *
  omega

/-- One fold step picks the dominating value of the pair. -/
theorem modeStep_ge (l : List ℕ) (b v : ℕ) :
    ModeGe l (if modeBetter l v b then v else b) b ∧
      ModeGe l (if modeBetter l v b then v else b) v := by
  by_cases h : modeBetter l v b = true
  · rw [if_pos h]
    unfold modeBetter at h
    simp only [Bool.or_eq_true, Bool.and_eq_true, decide_eq_true_eq] at h
    exact ⟨by unfold ModeGe; omega, modeGe_refl l v⟩
  · rw [if_neg h]
    unfold modeBetter at h
    simp only [Bool.or_eq_true, Bool.and_eq_true, decide_eq_true_eq,
      not_or, not_and, not_lt] at h
    refine ⟨modeGe_refl l b, ?_⟩
    unfold ModeGe
    rcases lt_or_eq_of_le h.1 with hlt | heq
    · exact Or.inl hlt
    · exact Or.inr ⟨heq.symm, h.2 heq⟩

/-- Invariant of the fold behind `modeLowest`: the accumulated value is one
of the candidates seen and dominates all of them. -/
theorem foldl_mode_spec (l : List ℕ) (p : List ℕ) (b : ℕ) :
    (p.foldl (fun best v => if modeBetter l v best then v else best) b = b ∨
      p.foldl (fun best v => if modeBetter l v best then v else best) b ∈ p) ∧
    ∀ w, (w = b ∨ w ∈ p) →
      ModeGe l (p.foldl (fun best v => if modeBetter l v best then v else best) b) w := by
  induction p generalizing b with
  | nil =>
      refine ⟨Or.inl rfl, ?_⟩
      rintro w (rfl | hw)
      · exact modeGe_refl l w
      · cases hw
  | cons v p ih =>
      simp only [List.foldl_cons]
      obtain ⟨ihmem, ihdom⟩ := ih (if modeBetter l v b then v else b)
      constructor
      · rcases ihmem with h | h
        · rw [h]
          by_cases hb : modeBetter l v b = true
          · rw [if_pos hb]; exact Or.inr (List.mem_cons_self v p)
          · rw [if_neg hb]; exact Or.inl rfl
        · exact Or.inr (List.mem_cons_of_mem v h)
      · rintro w (rfl | hw)
        · exact modeGe_trans l (ihdom _ (Or.inl rfl)) (modeStep_ge l w v).1
        · rcases List.mem_cons.mp hw with rfl | hw
          · exact modeGe_trans l (ihdom _ (Or.inl rfl)) (modeStep_ge l b w).2
          · exact ihdom _ (Or.inr hw)

/-- Characterisation of the mode: for a nonempty label list it returns a
member with maximal multiplicity, and the least label among those. -/
theorem modeLowest_spec (l : List ℕ) (hl : l ≠ []) :
    modeLowest l ∈ l ∧
      (∀ w ∈ l, l.count w ≤ l.count (modeLowest l)) ∧
      (∀ w ∈ l, l.count w = l.count (modeLowest l) → modeLowest l ≤ w) := by
  obtain ⟨ihmem, ihdom⟩ := foldl_mode_spec l l (l.headD 0)
  have hr : modeLowest l =
      l.foldl (fun best v => if modeBetter l v best then v else best) (l.headD 0) := rfl
  have hhead : l.headD 0 ∈ l := by
    cases l with
    | nil => exact absurd rfl hl
    | cons x xs => exact List.mem_cons_self x xs
  have hmem : modeLowest l ∈ l := by
    rw [hr]
    rcases ihmem with h | h
    · rw [h]; exact hhead
    · exact h
  refine ⟨hmem, ?_, ?_⟩
  · intro w hw
    rw [hr]
    rcases ihdom w (Or.inr hw) with h | h
    · exact le_of_lt h
    · exact le_of_eq h.1.symm
  · intro w hw
    rw [hr]
    intro hcnt
    rcases ihdom w (Or.inr hw) with h | h
    · omega
    · exact h.2

/-- Pointwise sum of two probability vectors (`torch` tensor addition along
the class dimension). -/
def vecAdd (a b : List ℝ) : List ℝ := List.zipWith (· + ·) a b

/-- Columnwise mean over ensemble members: `probs.mean(0)` at one example,
given the list of member probability vectors. -/
noncomputable def colMean : List (List ℝ) → List ℝ
  | [] => []
  | p :: ps => (ps.foldl vecAdd p).map (fun x => x / ((ps.length : ℝ) + 1))

/-- Hard labels of the members at one example: `probs.argmax(-1)` in the
`vote == 'hard'` branch of `HyperNetworkTrainer.test`, applied to the list
of member logit vectors for that example. -/
noncomputable def hardLabels (outputs : List (List ℝ)) : List ℕ :=
  outputs.map (fun v => argmaxIdx (softmax v))

/-- Hard vote at one example: `preds.mode(0)[0]` over the member labels. -/
noncomputable def hardVoteLabel (outputs : List (List ℝ)) : ℕ :=
  modeLowest (hardLabels outputs)

/-- Soft vote at one example: average the member softmax probabilities, then
take the argmax (`probs.mean(0)` followed by `preds.argmax(-1)` in the
`vote == 'soft'` branch of `HyperNetworkTrainer.test`). -/
noncomputable def softVoteLabel (outputs : List (List ℝ)) : ℕ :=
  argmaxIdx (colMean (outputs.map softmax))

theorem argmaxIdx_ofInt (li : List ℤ) (lr : List ℝ)
    (h : lr = li.map (fun n : ℤ => (n : ℝ))) : argmaxIdx lr = argmaxIdx li :=
  h ▸ argmaxIdx_intCast li

theorem colMean_singleton (p : List ℝ) : colMean [p] = p := by
  simp [colMean]

theorem modeLowest_singleton (a : ℕ) : modeLowest [a] = a := by
  simp [modeLowest]

theorem hardLabels_example1 :
    hardLabels [[5, 1, 0], [4, 2, 1], [0, 9, 1]] = [0, 0, 1] := by
  simp only [hardLabels, List.map_cons, List.map_nil, argmaxIdx_softmax]
  rw [argmaxIdx_ofInt ([5, 1, 0] : List ℤ) ([5, 1, 0] : List ℝ) (by simp),
    argmaxIdx_ofInt ([4, 2, 1] : List ℤ) ([4, 2, 1] : List ℝ) (by simp),
    argmaxIdx_ofInt ([0, 9, 1] : List ℤ) ([0, 9, 1] : List ℝ) (by simp)]
  decide

theorem hardLabels_example2 :
    hardLabels [[5, 1, 0], [1, 7, 0], [0, 1, 2]] = [0, 1, 2] := by
  simp only [hardLabels, List.map_cons, List.map_nil, argmaxIdx_softmax]
  rw [argmaxIdx_ofInt ([5, 1, 0] : List ℤ) ([5, 1, 0] : List ℝ) (by simp),
    argmaxIdx_ofInt ([1, 7, 0] : List ℤ) ([1, 7, 0] : List ℝ) (by simp),
    argmaxIdx_ofInt ([0, 1, 2] : List ℤ) ([0, 1, 2] : List ℝ) (by simp)]
  decide

/-- C1: in hard-vote mode the vote at each example is the majority mode of
the members' argmax labels, with ties broken deterministically towards the
lowest label: a 3-member ensemble whose logits give hard labels `[0, 0, 1]`
votes `0`, one giving `[0, 1, 2]` also votes `0` (lowest label of the
three-way tie), and in general the vote is a member label of maximal
multiplicity and the least such label — a deterministic function of the
inputs. -/
theorem hardVote_majority_mode_spec :
    hardVoteLabel [[5, 1, 0], [4, 2, 1], [0, 9, 1]] = 0 ∧
    hardVoteLabel [[5, 1, 0], [1, 7, 0], [0, 1, 2]] = 0 ∧
    ∀ outputs : List (List ℝ), outputs ≠ [] →
      hardVoteLabel outputs ∈ hardLabels outputs ∧
      (∀ w ∈ hardLabels outputs,
        (hardLabels outputs).count w ≤
          (hardLabels outputs).count (hardVoteLabel outputs)) ∧
      (∀ w ∈ hardLabels outputs,
        (hardLabels outputs).count w =
            (hardLabels outputs).count (hardVoteLabel outputs) →
          hardVoteLabel outputs ≤ w) := by
  refine ⟨?_, ?_, ?_⟩
  · show modeLowest (hardLabels [[5, 1, 0], [4, 2, 1], [0, 9, 1]]) = 0
    rw [hardLabels_example1]
    decide
  · show modeLowest (hardLabels [[5, 1, 0], [1, 7, 0], [0, 1, 2]]) = 0
    rw [hardLabels_example2]
    decide
  · intro outputs h
    have hne : hardLabels outputs ≠ [] := by
      simpa [hardLabels] using h
    exact modeLowest_spec (hardLabels outputs) hne

/-- C3: for a single-member ensemble the soft vote (average the softmax
probabilities then argmax) and the hard vote (argmax per member then mode)
return the same label at every example, both equal to that member's argmax
prediction. -/
theorem soft_hard_vote_agree_single (v : List ℝ) :
    softVoteLabel [v] = hardVoteLabel [v] ∧ softVoteLabel [v] = argmaxIdx v := by
  have hsoft : softVoteLabel [v] = argmaxIdx v := by
    unfold softVoteLabel
    rw [List.map_cons, List.map_nil, colMean_singleton, argmaxIdx_softmax]
  have hhard : hardVoteLabel [v] = argmaxIdx v := by
    unfold hardVoteLabel hardLabels
    rw [List.map_cons, List.map_nil, modeLowest_singleton, argmaxIdx_softmax]
  exact ⟨hsoft.trans hhard.symm, hsoft⟩

/-- The best-metrics record of the trainer: `best_test_loss` starts at
`np.inf` (modelled as `⊤ : EReal`) and `best_test_acc` at `0.`
(`HyperNetworkTrainer.__init__`, lines 129-130). -/
structure BestState where
  bestTestLoss : EReal
  bestTestAcc : ℝ

/-- The update at the end of `HyperNetworkTrainer.test` (lines 238-243): if
the new loss or accuracy improves, the improving field(s) are overwritten;
otherwise the state is untouched. -/
noncomputable def updateBest (s : BestState) (testLoss testAcc : ℝ) : BestState :=
  if (testLoss : EReal) < s.bestTestLoss ∨ s.bestTestAcc < testAcc then
    { bestTestLoss :=
        if (testLoss : EReal) < s.bestTestLoss then (testLoss : EReal)
        else s.bestTestLoss,
      bestTestAcc :=
        if s.bestTestAcc < testAcc then testAcc else s.bestTestAcc }
  else s

/-- Initial best-metrics state of `HyperNetworkTrainer.__init__`. -/
def initBest : BestState := { bestTestLoss := ⊤, bestTestAcc := 0 }

/-- The best-metrics trajectory of a whole training run: only the
evaluation phase (`test`) mutates the record, once per evaluation call. -/
noncomputable def runBest (evals : List (ℝ × ℝ)) : BestState :=
  evals.foldl (fun s e => updateBest s e.1 e.2) initBest

/-- Closed form of one best-metrics update: each field is overwritten
exactly when the fresh metric improves on it. -/
theorem updateBest_spec (s : BestState) (l a : ℝ) :
    ((updateBest s l a).bestTestLoss =
      if (l : EReal) < s.bestTestLoss then (l : EReal) else s.bestTestLoss) ∧
    ((updateBest s l a).bestTestAcc =
      if s.bestTestAcc < a then a else s.bestTestAcc) := by
  unfold updateBest
  by_cases h1 : (l : EReal) < s.bestTestLoss <;>
    by_cases h2 : s.bestTestAcc < a <;> simp [h1, h2]

/-- Folding further evaluations never worsens either best metric. -/
theorem foldBest_le (more : List (ℝ × ℝ)) (s : BestState) :
    (more.foldl (fun s e => updateBest s e.1 e.2) s).bestTestLoss ≤ s.bestTestLoss ∧
    s.bestTestAcc ≤ (more.foldl (fun s e => updateBest s e.1 e.2) s).bestTestAcc := by
  induction more generalizing s with
  | nil => exact ⟨le_refl _, le_refl _⟩
  | cons e es ih =>
      simp only [List.foldl_cons]
      obtain ⟨h1, h2⟩ := ih (updateBest s e.1 e.2)
      obtain ⟨u1, u2⟩ := updateBest_spec s e.1 e.2
      constructor
      · refine le_trans h1 ?_
        rw [u1]
        split
        · exact le_of_lt (by assumption)
        · exact le_refl _
      · refine le_trans ?_ h2
        rw [u2]
        split
        · exact le_of_lt (by assumption)
        · exact le_refl _

/-- C2: the best-metrics state is monotone across the whole run — each
evaluation leaves `best_test_loss` no larger and `best_test_acc` no
smaller, a field is overwritten only when the fresh test loss
(resp. accuracy) strictly improves on it (and then it is overwritten with
exactly that fresh value), and over any run the state after further
evaluations is at least as good as before them. -/
theorem best_metrics_monotone_spec :
    (∀ (s : BestState) (l a : ℝ),
      (updateBest s l a).bestTestLoss ≤ s.bestTestLoss ∧
      s.bestTestAcc ≤ (updateBest s l a).bestTestAcc ∧
      ((updateBest s l a).bestTestLoss ≠ s.bestTestLoss →
        (l : EReal) < s.bestTestLoss ∧
          (updateBest s l a).bestTestLoss = (l : EReal)) ∧
      ((updateBest s l a).bestTestAcc ≠ s.bestTestAcc →
        s.bestTestAcc < a ∧ (updateBest s l a).bestTestAcc = a)) ∧
    ∀ (evals more : List (ℝ × ℝ)),
      (runBest (evals ++ more)).bestTestLoss ≤ (runBest evals).bestTestLoss ∧
      (runBest evals).bestTestAcc ≤ (runBest (evals ++ more)).bestTestAcc := by
  constructor
  · intro s l a
    obtain ⟨u1, u2⟩ := updateBest_spec s l a
    refine ⟨?_, ?_, ?_, ?_⟩
    · rw [u1]
      split
      · exact le_of_lt (by assumption)
      · exact le_refl _
    · rw [u2]
      split
      · exact le_of_lt (by assumption)
      · exact le_refl _
    · intro hne
      rw [u1] at hne ⊢
      by_cases h : (l : EReal) < s.bestTestLoss
      · rw [if_pos h] at hne ⊢
        exact ⟨h, rfl⟩
      · rw [if_neg h] at hne
        exact absurd rfl hne
    · intro hne
      rw [u2] at hne ⊢
      by_cases h : s.bestTestAcc < a
      · rw [if_pos h] at hne ⊢
        exact ⟨h, rfl⟩
      · rw [if_neg h] at hne
        exact absurd rfl hne
  · intro evals more
    have : runBest (evals ++ more) =
        more.foldl (fun s e => updateBest s e.1 e.2) (runBest evals) := by
      unfold runBest
      exact List.foldl_append _ _ evals more
    rw [this]
    exact foldBest_le more (runBest evals)

/-- Cross-entropy of one example: `F.cross_entropy` at a single logit
vector and integer target, `-log softmax(logits)[target]`. -/
noncomputable def crossEntropy (logits : List ℝ) (t : ℕ) : ℝ :=
  -Real.log ((softmax logits).getD t 0)

/-- `F.cross_entropy(x, target)` for one ensemble member over a batch: the
mean of the per-example cross-entropies (default `mean` reduction). -/
noncomputable def batchCE (member : List (List ℝ)) (targets : List ℕ) : ℝ :=
  (List.zipWith crossEntropy member targets).sum / (member.length : ℝ)

/-- `losses.mean()` in `HyperNetworkTrainer.test` (line 233): the mean over
the (truncated) ensemble members of the per-member batch cross-entropy. -/
noncomputable def membersMeanCE (outputs : List (List (List ℝ)))
    (targets : List ℕ) : ℝ :=
  (outputs.map (fun m => batchCE m targets)).sum / (outputs.length : ℝ)

/-- The test loss of one evaluation pass (`HyperNetworkTrainer.test`, lines
206, 218-219, 233-234): a running sum over test batches of the member-mean
batch cross-entropy on the first `ens_size` members, divided once at the
end by the dataset size. -/
noncomputable def testPassLoss (batches : List (List (List (List ℝ)) × List ℕ))
    (ensSize dsSize : ℕ) : ℝ :=
  (batches.foldl (fun acc b => acc + membersMeanCE (b.1.take ensSize) b.2) 0) /
    (dsSize : ℝ)

/-- Modelled from the spec: the "exact per-example average" that the
specification contrasts the implementation with — the sum over all test
examples of the member-mean cross-entropy, divided by the dataset size. -/
noncomputable def perExampleMeanCE (batches : List (List (List (List ℝ)) × List ℕ))
    (ensSize dsSize : ℕ) : ℝ :=
  (batches.map (fun b =>
    (((b.1.take ensSize).map (fun m => (List.zipWith crossEntropy m b.2).sum)).sum) /
      (((b.1.take ensSize).length : ℝ)))).sum / (dsSize : ℝ)

/-- Cross-entropy on the uniform two-class logit vector is `log 2`. -/
theorem crossEntropy_uniform2 : crossEntropy [0, 0] 0 = Real.log 2 := by
  simp [crossEntropy, softmax, Real.exp_zero]
  norm_num

/-- A concrete test set: two batches of two examples each, a single
ensemble member, all logits `[0, 0]` and all targets `0`. -/
noncomputable def ceBatches : List (List (List (List ℝ)) × List ℕ) :=
  [([[[0, 0], [0, 0]]], [0, 0]), ([[[0, 0], [0, 0]]], [0, 0])]

/-- C4: the reported test loss is the running sum over test batches of the
member-mean per-batch cross-entropy divided once at the end by the test
set size, and this is not the exact per-example average: on a concrete
test set of four identical examples split into two batches the two
quantities differ. -/
theorem testLoss_batch_mean_accumulation :
    (∀ (batches : List (List (List (List ℝ)) × List ℕ)) (ensSize dsSize : ℕ),
      testPassLoss batches ensSize dsSize =
        (batches.map (fun b => membersMeanCE (b.1.take ensSize) b.2)).sum /
          (dsSize : ℝ)) ∧
    testPassLoss ceBatches 1 4 ≠ perExampleMeanCE ceBatches 1 4 := by
  constructor
  · intro batches ensSize dsSize
    unfold testPassLoss
    congr 1
    rw [← List.foldl_map, List.sum_eq_foldl]
  · have h1 : testPassLoss ceBatches 1 4 = Real.log 2 / 2 := by
      simp [testPassLoss, ceBatches, membersMeanCE, batchCE, crossEntropy_uniform2]
      ring
    have h2 : perExampleMeanCE ceBatches 1 4 = Real.log 2 := by
      simp [perExampleMeanCE, ceBatches, crossEntropy_uniform2]
      ring
    rw [h1, h2]
    have hpos : 0 < Real.log 2 := Real.log_pos (by norm_num)
    intro habs
    nlinarith

/-- The data-dependent attributes set by the dataset dispatch of
`HyperNetworkTrainer.__init__` (lines 120-127).  `none` models an attribute
the constructor never assigned (the `if`/`elif` chain has no `else`). -/
structure TrainerDataConfig where
  dataTrain : Option String
  dataTest : Option String
  uncertaintyFn : Option String
  plotFn : Option String
deriving DecidableEq

/-- The dataset dispatch of `__init__`: `mnist` and `cifar` install their
loaders; any other string matches no branch and leaves every attribute
unset. -/
def initDataConfig (dataset : String) : TrainerDataConfig :=
  if dataset = "mnist" then
    ⟨some "load_mnist.train", some "load_mnist.test",
      some "eval_mnist_hypernetwork", some "plot_density_mnist"⟩
  else if dataset = "cifar" then
    ⟨some "load_cifar.train", some "load_cifar.test",
      some "eval_cifar5_hypernetwork", some "plot_density_cifar"⟩
  else ⟨none, none, none, none⟩

/-- `HyperNetworkTrainer.__init__` as a fallible constructor: the body
raises no configuration error on any dataset or vote string, so the result
is always `ok`, carrying the (possibly unset) data attributes and the
unvalidated vote string. -/
def hyperNetworkInit (dataset vote : String) :
    Except String (TrainerDataConfig × String) :=
  Except.ok (initDataConfig dataset, vote)

/-- The vote dispatch of `HyperNetworkTrainer.test` (lines 221-229): the
`if`/`elif` has no `else`, so for any other vote string no vote value is
ever bound (`none` models the deferred `NameError` at line 231). -/
noncomputable def voteOf (vote : String) (outputs : List (List ℝ)) : Option ℕ :=
  if vote = "soft" then some (softVoteLabel outputs)
  else if vote = "hard" then some (hardVoteLabel outputs)
  else none

/-- C5 counterexample: with the unsupported dataset string `svhn` and vote
string `plurality` the constructor does not fail fast — it completes
normally, merely leaving every data attribute unset. -/
theorem init_unsupported_no_fail_fast :
    hyperNetworkInit "svhn" "plurality" =
      Except.ok (⟨none, none, none, none⟩, "plurality") := rfl

/-- C5 (amended): unsupported dataset and vote-mode strings are not
validated at configuration time; the constructor succeeds with every
data attribute unset and the vote string stored as-is, and in the test
phase an unsupported vote string produces no vote at all — the failure is
deferred to first use, and nothing silently defaults to a supported
dataset or vote mode. -/
theorem unsupported_config_deferred (dataset vote : String)
    (hd1 : dataset ≠ "mnist") (hd2 : dataset ≠ "cifar")
    (hv1 : vote ≠ "soft") (hv2 : vote ≠ "hard") :
    hyperNetworkInit dataset vote =
      Except.ok (⟨none, none, none, none⟩, vote) ∧
    ∀ outputs : List (List ℝ), voteOf vote outputs = none := by
  constructor
  · unfold hyperNetworkInit initDataConfig
    rw [if_neg hd1, if_neg hd2]
  · intro outputs
    unfold voteOf
    rw [if_neg hv1, if_neg hv2]

theorem unsupported_config_deferred_witness :
    hyperNetworkInit "svhn" "plurality" =
      Except.ok (⟨none, none, none, none⟩, "plurality") ∧
    ∀ outputs : List (List ℝ), voteOf "plurality" outputs = none :=
  unsupported_config_deferred "svhn" "plurality"
    (by decide) (by decide) (by decide) (by decide)

/-- Modelled from the spec: the naive ("baseline") mode of
`GradientEstimatorStein` — the module `stein_estimators` is not among the
repository's source files — where "gradient for each particle is just its
own data-loss gradient, scaled by a fixed `alpha` weighting factor".  The
trainer constructs the estimator with `alpha=1.0` (lines 112-118). -/
noncomputable def naiveCorrected (alpha : ℝ) (lossGrads : List (List ℝ)) :
    List (List ℝ) :=
  lossGrads.map (fun g => g.map (fun x => alpha * x))

/-- C6: in naive mode with `alpha = 1` the corrected gradient of every
particle equals that particle's own data-loss gradient exactly, and the
corrected gradient of particle `i` depends only on particle `i`'s own
data-loss gradient (no cross-particle coupling). -/
theorem naive_alpha_one_own_gradient :
    (∀ lossGrads : List (List ℝ), naiveCorrected 1 lossGrads = lossGrads) ∧
    ∀ (g g' : List (List ℝ)) (alpha : ℝ) (i : ℕ),
      g[i]? = g'[i]? →
      (naiveCorrected alpha g)[i]? = (naiveCorrected alpha g')[i]? := by
  constructor
  · intro lossGrads
    unfold naiveCorrected
    simp
  · intro g g' alpha i h
    unfold naiveCorrected
    rw [List.getElem?_map, List.getElem?_map, h]

/-- Squared euclidean distance of two flattened particle vectors. -/
noncomputable def sqDist (a b : List ℝ) : ℝ :=
  (List.zipWith (fun x y => (x - y) ^ 2) a b).sum

/-- Insert into a sorted list of distances. -/
noncomputable def insertSorted (x : ℝ) : List ℝ → List ℝ
  | [] => [x]
  | y :: ys => if x ≤ y then x :: y :: ys else y :: insertSorted x ys

/-- Insertion sort of the pairwise distances (median computation). -/
noncomputable def sortReals : List ℝ → List ℝ
  | [] => []
  | x :: xs => insertSorted x (sortReals xs)

/-- Median element of a distance list (middle of the sorted order). -/
noncomputable def medianOf (l : List ℝ) : ℝ :=
  (sortReals l).getD (l.length / 2) 0

/-- All pairwise squared distances of the particle ensemble. -/
noncomputable def pairwiseSqDists (ps : List (List ℝ)) : List ℝ :=
  ps.flatMap (fun a => ps.map (fun b => sqDist a b))

/-- Modelled from the spec: the RBF bandwidth of the Stein (`svgd`) mode of
`GradientEstimatorStein` — "bandwidth set by median pairwise distance
across particle parameter vectors", with "a degenerate bandwidth (all
particles identical)" guarded by a "clamped minimum bandwidth". -/
noncomputable def bandwidth (ps : List (List ℝ)) : ℝ :=
  max (medianOf (pairwiseSqDists ps)) (1e-8 : ℝ)

/-- Modelled from the spec: the RBF kernel entry `K[i,j]` over the particle
ensemble. -/
noncomputable def steinKernel (ps : List (List ℝ)) (i j : ℕ) : ℝ :=
  Real.exp (-(sqDist (ps.getD i []) (ps.getD j [])) / bandwidth ps)

/-- Pointwise difference of two particle vectors. -/
def vecSub (a b : List ℝ) : List ℝ := List.zipWith (· - ·) a b

/-- Modelled from the spec: the repulsion term `sum_j grad_j K[i,j]` of the
Stein mode — for the RBF kernel, `grad_j K[i,j]` is
`(2 / h) * K[i,j] * (theta_i - theta_j)` coordinatewise. -/
noncomputable def repulsionTerm (ps : List (List ℝ)) (i : ℕ) : List ℝ :=
  ((List.range ps.length).map (fun j =>
    (vecSub (ps.getD i []) (ps.getD j [])).map
      (fun x => 2 / bandwidth ps * steinKernel ps i j * x))).foldl
    vecAdd ((ps.getD i []).map (fun _ => 0))

theorem sqDist_self (v : List ℝ) : sqDist v v = 0 := by
  induction v with
  | nil => rfl
  | cons x xs ih =>
      unfold sqDist at *
      simp [ih]

theorem mem_insertSorted {a x : ℝ} :
    ∀ {l : List ℝ}, a ∈ insertSorted x l → a = x ∨ a ∈ l := by
  intro l
  induction l with
  | nil =>
      intro h
      rcases List.mem_singleton.mp h with rfl
      exact Or.inl rfl
  | cons y ys ih =>
      intro h
      unfold insertSorted at h
      split at h
      · rcases List.mem_cons.mp h with rfl | h2
        · exact Or.inl rfl
        · exact Or.inr h2
      · rcases List.mem_cons.mp h with rfl | h2
        · exact Or.inr (List.mem_cons_self _ _)
        · rcases ih h2 with h3 | h3
          · exact Or.inl h3
          · exact Or.inr (List.mem_cons_of_mem _ h3)

theorem mem_sortReals {a : ℝ} : ∀ {l : List ℝ}, a ∈ sortReals l → a ∈ l := by
  intro l
  induction l with
  | nil => intro h; cases h
  | cons x xs ih =>
      intro h
      unfold sortReals at h
      rcases mem_insertSorted h with rfl | h2
      · exact List.mem_cons_self _ _
      · exact List.mem_cons_of_mem _ (ih h2)

theorem getD_mem_or {α : Type} (l : List α) (n : ℕ) (d : α) :
    l.getD n d ∈ l ∨ l.getD n d = d := by
  induction l generalizing n with
  | nil => exact Or.inr rfl
  | cons x xs ih =>
      cases n with
      | zero => exact Or.inl (List.mem_cons_self _ _)
      | succ m =>
          rcases ih m with h | h
          · exact Or.inl (List.mem_cons_of_mem _ h)
          · exact Or.inr h

/-- A median over a list of zeros is zero. -/
theorem medianOf_zeros (l : List ℝ) (hz : ∀ x ∈ l, x = 0) : medianOf l = 0 := by
  unfold medianOf
  rcases getD_mem_or (sortReals l) (l.length / 2) 0 with h | h
  · exact hz _ (mem_sortReals h)
  · exact h

theorem getD_mem_of_lt {α : Type} (l : List α) (n : ℕ) (d : α)
    (h : n < l.length) : l.getD n d ∈ l := by
  induction l generalizing n with
  | nil => cases h
  | cons x xs ih =>
      cases n with
      | zero => exact List.mem_cons_self _ _
      | succ m =>
          exact List.mem_cons_of_mem _ (ih m (Nat.lt_of_succ_lt_succ h))

theorem vecSub_self (v : List ℝ) : vecSub v v = v.map (fun _ => 0) := by
  induction v with
  | nil => rfl
  | cons x xs ih => simp [vecSub, ih]

theorem vecAdd_zeros (v : List ℝ) :
    vecAdd (v.map (fun _ => 0)) (v.map (fun _ => 0)) = v.map (fun _ => 0) := by
  induction v with
  | nil => rfl
  | cons x xs ih => simp [vecAdd, ih]

theorem foldl_idem_const {α : Type} (f : α → α → α) (z : α) (hf : f z z = z) :
    ∀ L : List α, (∀ x ∈ L, x = z) → L.foldl f z = z := by
  intro L
  induction L with
  | nil => intro _; rfl
  | cons x xs ih =>
      intro h
      rw [List.foldl_cons, h x (List.mem_cons_self _ _), hf]
      exact ih (fun y hy => h y (List.mem_cons_of_mem _ hy))

/-- C7: in Stein (svgd) mode with all particles identical, the clamped
median bandwidth stays strictly positive (the kernel's exponent divides by
a nonzero number, so no NaN arises), every kernel matrix entry is exactly
`1`, and the repulsion term of every particle is the zero vector. -/
theorem stein_identical_particles_defined (ps : List (List ℝ)) (theta : List ℝ)
    (hall : ∀ p ∈ ps, p = theta) :
    0 < bandwidth ps ∧
    (∀ i j, i < ps.length → j < ps.length → steinKernel ps i j = 1) ∧
    ∀ i, i < ps.length → repulsionTerm ps i = theta.map (fun _ => 0) := by
  have hbw : 0 < bandwidth ps :=
    lt_of_lt_of_le (by norm_num) (le_max_right _ _)
  have hget : ∀ k, k < ps.length → ps.getD k [] = theta := by
    intro k hk
    exact hall _ (getD_mem_of_lt ps k [] hk)
  refine ⟨hbw, ?_, ?_⟩
  · intro i j hi hj
    unfold steinKernel
    rw [hget i hi, hget j hj, sqDist_self, neg_zero, zero_div, Real.exp_zero]
  · intro i hi
    unfold repulsionTerm
    rw [hget i hi]
    apply foldl_idem_const vecAdd _ (vecAdd_zeros theta)
    intro x hx
    rcases List.mem_map.mp hx with ⟨j, hj, rfl⟩
    have hjlt : j < ps.length := List.mem_range.mp hj
    rw [hget j hjlt, vecSub_self, List.map_map]
    simp [Function.comp_def, mul_zero]

theorem stein_identical_particles_witness :
    0 < bandwidth [[(0 : ℝ), 0], [0, 0]] ∧
    (∀ i j, i < ([[(0 : ℝ), 0], [0, 0]] : List (List ℝ)).length →
      j < ([[(0 : ℝ), 0], [0, 0]] : List (List ℝ)).length →
      steinKernel [[(0 : ℝ), 0], [0, 0]] i j = 1) ∧
    ∀ i, i < ([[(0 : ℝ), 0], [0, 0]] : List (List ℝ)).length →
      repulsionTerm [[(0 : ℝ), 0], [0, 0]] i =
        ([0, 0] : List ℝ).map (fun _ => 0) :=
  stein_identical_particles_defined [[(0 : ℝ), 0], [0, 0]] [0, 0] (by simp)

/-- The operations of one training mini-batch in
`HyperNetworkTrainer.train` (lines 140-166). -/
inductive TrainOp where
  | sampleLatents
  | generateParticles
  | installParticles
  | forwardPass
  | computeGradients
  | zeroGrad
  | applyGradients
  | optimizerStep
  | logStats
deriving DecidableEq

/-- Lines 142-147: sample `z`, generate `theta`, install it into the target
model, forward the data batch. -/
def forwardPhaseOps : List TrainOp :=
  [.sampleLatents, .generateParticles, .installParticles, .forwardPass]

/-- Lines 149-154: estimator computes losses and corrected gradients, the
generator's gradients are cleared, the estimator backpropagates the
corrected gradients into the generator. -/
def gradientPhaseOps : List TrainOp :=
  [.computeGradients, .zeroGrad, .applyGradients]

/-- Lines 161-166: statistics are printed when `batch_idx % 100 == 0`. -/
def logOps (batchIdx : ℕ) : List TrainOp :=
  if batchIdx % 100 = 0 then [.logStats] else []

/-- The full operation sequence of one training mini-batch: the forward
phase, the gradient phase, the generator optimizer step (line 156), then
the periodic logging. -/
def perBatchOps (batchIdx : ℕ) : List TrainOp :=
  forwardPhaseOps ++ gradientPhaseOps ++ [.optimizerStep] ++ logOps batchIdx

/-- The two learning rates passed to `attach_optimizers` (lines 108-110):
one for the mixer sub-network, one for the generator layers. -/
def lrMixer : ℚ := 5 / 1000

/-- Generator-layer learning rate of `attach_optimizers`. -/
def lrGenerator : ℚ := 1 / 10000

/-- C8: every training mini-batch runs exactly the sequence sample latents,
generate particles, install them, forward pass, compute corrected
gradients, clear generator gradients, backpropagate the corrected
gradients, optimizer step — with logging appended exactly on every 100th
batch index — the gradient operations occur in that strict order before
the optimizer step, and the optimizer uses two distinct learning rates,
`5e-3` for the mixer and `1e-4` for the generator layers. -/
theorem train_batch_sequence_spec :
    (∀ b : ℕ, perBatchOps b =
      [TrainOp.sampleLatents, TrainOp.generateParticles,
        TrainOp.installParticles, TrainOp.forwardPass,
        TrainOp.computeGradients, TrainOp.zeroGrad, TrainOp.applyGradients,
        TrainOp.optimizerStep] ++
        if b % 100 = 0 then [TrainOp.logStats] else []) ∧
    (∀ b : ℕ, TrainOp.logStats ∈ perBatchOps b ↔ b % 100 = 0) ∧
    (∀ b : ℕ,
      (perBatchOps b).indexOf TrainOp.computeGradients <
        (perBatchOps b).indexOf TrainOp.zeroGrad ∧
      (perBatchOps b).indexOf TrainOp.zeroGrad <
        (perBatchOps b).indexOf TrainOp.applyGradients ∧
      (perBatchOps b).indexOf TrainOp.applyGradients <
        (perBatchOps b).indexOf TrainOp.optimizerStep) ∧
    lrMixer = 5 / 1000 ∧ lrGenerator = 1 / 10000 ∧ lrMixer ≠ lrGenerator := by
  refine ⟨?_, ?_, ?_, rfl, rfl, by norm_num [lrMixer, lrGenerator]⟩
  · intro b
    by_cases h : b % 100 = 0 <;>
      simp [perBatchOps, forwardPhaseOps, gradientPhaseOps, logOps, h]
  · intro b
    by_cases h : b % 100 = 0 <;>
      simp [perBatchOps, forwardPhaseOps, gradientPhaseOps, logOps, h]
  · intro b
    unfold perBatchOps forwardPhaseOps gradientPhaseOps logOps
    by_cases h : b % 100 = 0
    · rw [if_pos h]; decide
    · rw [if_neg h]; decide

/-- The ensemble sub-sizes evaluated at the end of each epoch
(`HyperNetworkTrainer.train`, lines 168-171). -/
def ensSizes (testEnsemble : Bool) (particles : ℕ) : List ℕ :=
  if testEnsemble then [1, 5, 10, particles] else [particles]

/-- `outputs = outputs[:ens_size]` in `HyperNetworkTrainer.test`
(line 218): Python slicing clamps, modelled by `List.take`. -/
def truncateEnsemble (outputs : List (List (List ℝ))) (ensSize : ℕ) :
    List (List (List ℝ)) :=
  outputs.take ensSize

/-- C9: requesting an ensemble sub-size at least the number of generated
members does not fail — the truncation clamps and returns the whole
ensemble — and with ensemble ablation enabled the sub-sizes 5 and 10 are
among those requested, so a run with fewer than 5 (resp. 10) particles
silently evaluates the full ensemble for them. -/
theorem ensemble_truncation_clamps (outputs : List (List (List ℝ))) (n : ℕ)
    (h : outputs.length ≤ n) :
    truncateEnsemble outputs n = outputs ∧
    5 ∈ ensSizes true outputs.length ∧ 10 ∈ ensSizes true outputs.length := by
  refine ⟨List.take_of_length_le h, ?_, ?_⟩ <;> simp [ensSizes]

theorem ensemble_truncation_clamps_witness :
    truncateEnsemble [[[(0 : ℝ)]], [[1]], [[2]]] 5 = [[[(0 : ℝ)]], [[1]], [[2]]] ∧
    5 ∈ ensSizes true ([[[(0 : ℝ)]], [[1]], [[2]]] : List (List (List ℝ))).length ∧
    10 ∈ ensSizes true ([[[(0 : ℝ)]], [[1]], [[2]]] : List (List (List ℝ))).length :=
  ensemble_truncation_clamps [[[(0 : ℝ)]], [[1]], [[2]]] 5 (by simp)

/-- Modelled from the spec: the process-wide seeded random generator state
that `sample_generator_input` draws from (the `hypernetwork` module is not
among the repository's source files) — a deterministic stream together
with the number of draws already made. -/
structure Rng (L : Type) where
  stream : ℕ → L
  pos : ℕ

/-- Modelled from the spec: one latent draw — read the stream at the
current position and advance the generator state. -/
def drawLatent {L : Type} (r : Rng L) : L × Rng L :=
  (r.stream r.pos, ⟨r.stream, r.pos + 1⟩)

/-- The evaluation loop of `HyperNetworkTrainer.test` (lines 210-217): for
every test mini-batch a fresh latent batch is drawn and a new particle
ensemble is generated (and installed) from it. -/
def testPassEnsembles {L T : Type} (gen : L → T) : Rng L → ℕ → List T
  | _, 0 => []
  | r, Nat.succ n =>
      gen (drawLatent r).1 :: testPassEnsembles gen (drawLatent r).2 n

/-- C10: during one evaluation pass the ensemble scoring the `i`-th test
mini-batch is generated from the `i`-th fresh latent draw of the pass —
each batch gets its own newly sampled ensemble, not one fixed ensemble
reused across the test set. -/
theorem test_fresh_ensemble_per_batch {L T : Type} (gen : L → T)
    (r : Rng L) (n : ℕ) :
    testPassEnsembles gen r n =
      (List.range n).map (fun i => gen (r.stream (r.pos + i))) := by
  induction n generalizing r with
  | zero => rfl
  | succ n ih =>
      have hstep : testPassEnsembles gen r (n + 1) =
          gen (r.stream r.pos) ::
            testPassEnsembles gen ⟨r.stream, r.pos + 1⟩ n := rfl
      have harith : ∀ i : ℕ, r.pos + 1 + i = r.pos + (i + 1) := fun i => by omega
      rw [hstep, ih, List.range_succ_eq_map, List.map_cons, List.map_map]
      congr 1
      apply List.map_congr_left
      intro a _
      show gen (r.stream (r.pos + 1 + a)) = gen (r.stream (r.pos + (a + 1)))
      rw [harith a]

end HyperGAN
